import Mathlib

/-!
Formal model of `tables/quick/improve_quick5.py`.

The script reads a tab-separated input-method table file, merges duplicate
records keeping the maximal weight, demotes the weight of 1- and 2-letter
non-x spellings of a character to 900 whenever an x-prefixed spelling of the
same character exists, and writes the result back with a deterministic sort
order.  File input/output is modelled as the file's text content; machine
integers of the source are arbitrary-precision `Int`, matching Python.
-/

namespace ImproveQuick5

/-- Value part of one record of the in-memory table: the priority weight and
the optional trailing comment (the Python dict value
`{'weight': int(weight), 'comment': comment}`). -/
structure Entry where
  weight : Int
  comment : String
  deriving DecidableEq

/-- Key of the record store: the pair `(input, chinese_character)`. -/
abbrev Key := String × String

/-- The record store, modelling the insertion-ordered Python dict
`table: Dict[Tuple[str, str], int]` as an association list whose keys are
kept unique by the insertion logic. -/
abbrev Store := List (Key × Entry)

/-- The whitespace characters Python's `str.strip` removes (ASCII; the
unicode whitespace cases do not occur in these table files). -/
def pyIsSpace (c : Char) : Bool :=
  c = ' ' || c = '\t' || c = '\n' || c = '\r' || c = '\x0b' || c = '\x0c'

/-- Python `s.strip()`: drop whitespace from both ends. -/
def pyStrip (s : String) : String :=
  String.mk (((s.data.dropWhile pyIsSpace).reverse.dropWhile pyIsSpace).reverse)

/-- Python `s.startswith(pre)`. -/
def pyStartsWith (s pre : String) : Bool := pre.data.isPrefixOf s.data

/-- Python `s.split('\t')` on the already stripped line: split at every
single tab, keeping empty pieces. -/
def splitFields : List Char → List Char → List String
  | [], acc => [String.mk acc.reverse]
  | c :: cs, acc =>
    if c = '\t' then String.mk acc.reverse :: splitFields cs []
    else splitFields cs (c :: acc)

/-- Value of a run of decimal digits. -/
def digitsToNat (l : List Char) : Nat :=
  l.foldl (fun acc c => 10 * acc + (c.toNat - 48)) 0

/-- Model of Python `int(s)` as used on the weight field: optional
surrounding whitespace, an optional sign, then a nonempty run of decimal
digits; anything else raises `ValueError`, modelled by `none`. -/
def parseInt? (s : String) : Option Int :=
  match (pyStrip s).data with
  | [] => none
  | c :: cs =>
    if c = '-' then
      if cs ≠ [] ∧ cs.all (fun d => d.isDigit) then some (-(digitsToNat cs : Int)) else none
    else if c = '+' then
      if cs ≠ [] ∧ cs.all (fun d => d.isDigit) then some ((digitsToNat cs : Int)) else none
    else if (c :: cs).all (fun d => d.isDigit) then some ((digitsToNat (c :: cs) : Int))
    else none

/-- One parsed table-region line:
`(input, chinese_character, weight, comment)`. -/
structure Row where
  input : String
  character : String
  weight : Int
  comment : String
  deriving DecidableEq

/-- Key of the record a row is inserted under: `(input, chinese_character)`. -/
def rowKey (r : Row) : Key := (r.input, r.character)

/-- `line.strip().split('\t')` of the source. -/
def tabFields (line : String) : List String := splitFields (pyStrip line).data []

/-- Parsing of one table-region line (source lines 101-107): split the
stripped line on tabs, pad a 3-field line with an empty comment, then
destructure into exactly four fields; a field count other than 3 or 4 is the
`ValueError` of tuple unpacking, a non-integer weight the `ValueError` of
`int`. -/
def parseTableLine (line : String) : Except String Row :=
  let fields0 := tabFields line
  let fields := if fields0.length < 4 then fields0 ++ [""] else fields0
  match fields with
  | [i, c, w, cm] =>
    match parseInt? w with
    | some n => .ok ⟨i, c, n, cm⟩
    | none => .error ("invalid literal for int with base 10: " ++ w)
  | _ => .error "wrong number of values to unpack in table line"

/-- First entry stored under a key, i.e. Python `table[(input, ch)]`
(keys are unique in every store the program builds). -/
def lookup : Store → Key → Option Entry
  | [], _ => none
  | kv :: rest, k => if kv.1 = k then some kv.2 else lookup rest k

/-- Python `(input, chinese_character) in table`. -/
def containsKey (st : Store) (k : Key) : Bool := (lookup st k).isSome

/-- Upsert of one parsed row (source lines 108-120): on a duplicate key only
the weight is replaced by the maximum of the new and the stored weight and
the stored comment is kept; otherwise the record is appended, matching
Python dict insertion order. -/
def insertRow (st : Store) (r : Row) : Store :=
  if containsKey st (rowKey r) then
    st.map (fun kv =>
      if kv.1 = rowKey r then (kv.1, ⟨max r.weight kv.2.weight, kv.2.comment⟩) else kv)
  else
    st ++ [(rowKey r, ⟨r.weight, r.comment⟩)]

/-- Fold of `insertRow` over a list of parsed rows, the table-building part
of the reading loop. -/
def readRows (st : Store) (rows : List Row) : Store := rows.foldl insertRow st

/-- State of the reading loop of `improve_quick5` (source lines 83-88). -/
structure ReadAcc where
  head : List String
  table : Store
  tail : List String
  readingHead : Bool
  readingTable : Bool
  deriving DecidableEq

/-- Initial reading state. -/
def initAcc : ReadAcc := ⟨[], [], [], true, true⟩

/-- One iteration of the reading loop (source lines 91-125): header lines go
verbatim to `head`, the `BEGIN_TABLE` marker is replaced by the canonical
line `"BEGIN_TABLE\n"`, table lines are parsed and upserted, and everything
from the `END_TABLE` marker on goes verbatim to `tail`. -/
def readLine (acc : ReadAcc) (line : String) : Except String ReadAcc :=
  if acc.readingHead && !(pyStartsWith line "BEGIN_TABLE") then
    .ok { acc with head := acc.head ++ [line] }
  else if acc.readingHead then
    .ok { acc with head := acc.head ++ ["BEGIN_TABLE\n"], readingHead := false }
  else if acc.readingTable && !(pyStartsWith line "END_TABLE") then
    match parseTableLine line with
    | .ok r => .ok { acc with table := insertRow acc.table r }
    | .error e => .error e
  else
    .ok { acc with readingTable := false, tail := acc.tail ++ [line] }

/-- The 25-letter alphabet of candidate alternate spellings
(source line 163), the letter `x` excluded. -/
def valid_input_chars_without_x : String := "abcdefghijklmnopqrstuvwyz"

/-- Guarded weight update, Python
`if key in table: table[key]['weight'] = w` (the guard is absorbed into the
pointwise map: a missing key updates nothing). -/
def setWeight (st : Store) (k : Key) (w : Int) : Store :=
  st.map (fun kv => if kv.1 = k then (kv.1, ⟨w, kv.2.comment⟩) else kv)

/-- The demotion loops of the normalizer (source lines 163-169): for every
letter and every ordered pair of letters of the 25-letter alphabet, set the
weight of the record with that key and the given character to 900 if it
exists. -/
def demoteFor (st : Store) (ch : String) : Store :=
  valid_input_chars_without_x.data.foldl
    (fun st1 c1 =>
      valid_input_chars_without_x.data.foldl
        (fun st2 c2 =>
          setWeight st2 (String.singleton c1 ++ String.singleton c2, ch) 900)
        (setWeight st1 (String.singleton c1, ch) 900))
    st

/-- One iteration of the normalizer loop over the keys of the store
(source lines 126-169): `unicodedata.name` raises `TypeError` unless the
character field is exactly one code point; afterwards records whose input
starts with `x` trigger the demotion loops.  The diagnostics of the loop
body are logging only and are dropped. -/
def normStep (st : Store) (k : Key) : Except String Store :=
  if k.2.length ≠ 1 then
    .error "name() argument 1 must be a unicode character"
  else if pyStartsWith k.1 "x" then
    .ok (demoteFor st k.2)
  else
    .ok st

/-- The whole normalization pass: the loop `for (input, chinese_character)
in table` iterates over the key list, which value updates never change. -/
def normalize (st : Store) : Except String Store :=
  (st.map Prod.fst).foldlM normStep st

/-- Unicode code point of the character field, Python `ord(x[0][1])`
(only evaluated on single-code-point fields, which normalization
guarantees). -/
def codePoint (s : String) : Nat := (s.data.headD (Char.ofNat 0)).toNat

/-- The Python sort key `(input, -weight, ord(character))` under the
lexicographic tuple order. -/
def sortKey (a : Key × Entry) : Lex (String × Lex (Int × Nat)) :=
  toLex (a.1.1, toLex (-a.2.weight, codePoint a.1.2))

/-- Comparison used by `sorted` (source lines 178-183). -/
def recordRel (a b : Key × Entry) : Prop := sortKey a ≤ sortKey b

instance : DecidableRel recordRel :=
  fun a b => inferInstanceAs (Decidable (sortKey a ≤ sortKey b))

/-- Python `sorted(table.items(), key=...)`: a stable sort by the sort key,
modelled by insertion sort. -/
def sortRecords (st : Store) : Store := List.insertionSort recordRel st

/-- Serialization of one record (source lines 184-190): the comment field is
appended only when non-empty. -/
def formatRecord (kv : Key × Entry) : String :=
  if kv.2.comment ≠ "" then
    kv.1.1 ++ "\t" ++ kv.1.2 ++ "\t" ++ toString kv.2.weight ++ "\t" ++ kv.2.comment ++ "\n"
  else
    kv.1.1 ++ "\t" ++ kv.1.2 ++ "\t" ++ toString kv.2.weight ++ "\n"

/-- The write phase (source lines 174-192): head verbatim, then the sorted
records, then tail verbatim; the output file's content is the concatenation
of everything written. -/
def writeOutput (head : List String) (st : Store) (tail : List String) : String :=
  String.join head ++ String.join ((sortRecords st).map formatRecord) ++ String.join tail

/-- The pipeline on the list of input lines: read, normalize, then write.
The write phase is reached only when reading and normalization succeed. -/
def improveLines (lines : List String) : Except String String := do
  let acc ← lines.foldlM readLine initAcc
  let table ← normalize acc.table
  .ok (writeOutput acc.head table acc.tail)

/-- Python line iteration over a file: split after every newline, keeping
the newline; a last line without a trailing newline is kept too. -/
def linesAux : List Char → List Char → List (List Char)
  | [], acc => if acc = [] then [] else [acc.reverse]
  | c :: cs, acc =>
    if c = '\n' then (acc.reverse ++ ['\n']) :: linesAux cs []
    else linesAux cs (c :: acc)

/-- The lines of a file's content, as Python's `for line in inputfile`
yields them. -/
def pythonLines (s : String) : List String := (linesAux s.data []).map String.mk

/-- `improve_quick5`, with file input/output modelled as text content:
the returned string is the content written to the output file, and an
`error` is an uncaught Python exception raised before the output file is
opened. -/
def improve_quick5 (content : String) : Except String String :=
  improveLines (pythonLines content)

/-! ### Derived definitions used to state and prove the claims -/

/-- Setting the weight of an entry to the constant 900. -/
def set900 (kv : Key × Entry) : Key × Entry := (kv.1, ⟨900, kv.2.comment⟩)

/-- Pointwise effect of the single-letter update of the demotion loops. -/
def upd1 (ch : String) (c1 : Char) (kv : Key × Entry) : Key × Entry :=
  if kv.1 = (String.singleton c1, ch) then set900 kv else kv

/-- Pointwise effect of the two-letter update of the demotion loops. -/
def upd2 (ch : String) (c1 c2 : Char) (kv : Key × Entry) : Key × Entry :=
  if kv.1 = (String.singleton c1 ++ String.singleton c2, ch) then set900 kv else kv

/-- Pointwise effect of one iteration of the outer demotion loop. -/
def updFor (ch : String) (c1 : Char) (kv : Key × Entry) : Key × Entry :=
  valid_input_chars_without_x.data.foldl (fun kv c2 => upd2 ch c1 c2 kv) (upd1 ch c1 kv)

/-- Pointwise effect of the whole demotion pass for one character. -/
def demoteEntry (ch : String) (kv : Key × Entry) : Key × Entry :=
  valid_input_chars_without_x.data.foldl (fun kv c1 => updFor ch c1 kv) kv

/-- The keys the demotion loops can touch: a 1- or 2-letter input over the
25-letter alphabet, paired with the demoted character. -/
def targetShape (s : String) : Prop :=
  (s.data.length = 1 ∨ s.data.length = 2) ∧
    ∀ c ∈ s.data, c ∈ valid_input_chars_without_x.data

/-- Pointwise effect of one iteration of the key loop of `normalize`. -/
def normEntryStep (k : Key) (kv : Key × Entry) : Key × Entry :=
  if pyStartsWith k.1 "x" then demoteEntry k.2 kv else kv

/-- Pointwise effect of the whole key loop of `normalize`. -/
def normalizeEntry (keys : List Key) (kv : Key × Entry) : Key × Entry :=
  keys.foldl (fun kv k => normEntryStep k kv) kv

/-- There is an x-prefixed record for character `ch` among `keys`. -/
def xSibling (keys : List Key) (ch : String) : Prop :=
  ∃ k ∈ keys, pyStartsWith k.1 "x" = true ∧ k.2 = ch

/-- Maximum of a list of weights, `none` for the empty list. -/
def listMax : List Int → Option Int
  | [] => none
  | w :: ws =>
    match listMax ws with
    | none => some w
    | some m => some (max w m)

/-- Merge of an optional stored weight with an optional candidate maximum. -/
def combineMax : Option Int → Option Int → Option Int
  | none, b => b
  | some a, none => some a
  | some a, some b => some (max a b)

/-- Weight stored under a key. -/
def weightAt (st : Store) (k : Key) : Option Int := (lookup st k).map Entry.weight

/-- Comment stored under a key. -/
def commentAt (st : Store) (k : Key) : Option String := (lookup st k).map Entry.comment

/-- Left-biased choice, keeping the first stored value. -/
def orFirst : Option String → Option String → Option String
  | some a, _ => some a
  | none, b => b

instance : IsTotal (Key × Entry) recordRel :=
  ⟨fun a b => le_total (sortKey a) (sortKey b)⟩

instance : IsTrans (Key × Entry) recordRel :=
  ⟨fun _ _ _ h1 h2 => le_trans h1 h2⟩

/-- The strict order of the output body: inputKey ascending, then weight
descending, then the character's code point ascending. -/
def recordBefore (a b : Key × Entry) : Prop :=
  a.1.1 < b.1.1 ∨ (a.1.1 = b.1.1 ∧ (b.2.weight < a.2.weight ∨
    (a.2.weight = b.2.weight ∧ codePoint a.1.2 < codePoint b.1.2)))

/-- The table region of the lines following the `BEGIN_TABLE` marker:
everything before the first `END_TABLE` line. -/
def tableRegion (rest : List String) : List String :=
  rest.takeWhile (fun l => !(pyStartsWith l "END_TABLE"))

/-- A malformed table line: a field count other than 3 or 4 after
tab-splitting the stripped line, a non-integer weight field, or a character
field that is not exactly one code point. -/
def malformedLine (l : String) : Prop :=
  ((tabFields l).length ≠ 3 ∧ (tabFields l).length ≠ 4)
  ∨ parseInt? ((tabFields l).getD 2 "") = none
  ∨ ((tabFields l).getD 1 "").length ≠ 1

/-! ### Generic helpers -/

theorem except_bind_ok {α β : Type} (v : α) (g : α → Except String β) :
    (Except.ok v >>= g) = g v := rfl

theorem except_bind_error {α β : Type} (e : String) (g : α → Except String β) :
    ((Except.error e : Except String α) >>= g) = Except.error e := rfl

theorem foldlM_except_nil {α σ : Type} (f : σ → α → Except String σ) (s : σ) :
    ([] : List α).foldlM f s = .ok s := rfl

theorem foldlM_except_cons {α σ : Type} (f : σ → α → Except String σ) (a : α) (l : List α)
    (s : σ) : (a :: l).foldlM f s = f s a >>= fun s1 => l.foldlM f s1 := rfl

theorem foldlM_except_append {α σ : Type} (f : σ → α → Except String σ) (l1 l2 : List α) :
    ∀ s : σ, (l1 ++ l2).foldlM f s = (l1.foldlM f s) >>= fun s1 => l2.foldlM f s1 := by
  induction l1 with
  | nil => intro s; rfl
  | cons a l ih =>
    intro s
    rw [List.cons_append, foldlM_except_cons, foldlM_except_cons]
    cases f s a with
    | error e => rw [except_bind_error, except_bind_error, except_bind_error]
    | ok s1 => rw [except_bind_ok, except_bind_ok, ih]

theorem foldl_map_comm {α β : Type} (f : β → α → α) :
    ∀ (l : List β) (st : List α),
      l.foldl (fun s b => s.map (f b)) st = st.map (fun a => l.foldl (fun a b => f b a) a) := by
  intro l
  induction l with
  | nil => intro st; simp
  | cons b l ih =>
    intro st
    rw [List.foldl_cons, ih, List.map_map]
    rfl

theorem foldl_map_comm2 {α β : Type} (f : β → α → α) (g : α → α) (l : List β) (st : List α) :
    l.foldl (fun s b => s.map (f b)) (st.map g)
      = st.map (fun a => l.foldl (fun a b => f b a) (g a)) := by
  rw [foldl_map_comm, List.map_map]
  apply List.map_congr_left
  intro a _
  rfl

theorem foldl_fix {α β : Type} (f : β → α → α) (a : α) :
    ∀ (l : List β), (∀ b ∈ l, f b a = a) → l.foldl (fun x b => f b x) a = a := by
  intro l
  induction l with
  | nil => intro _; rfl
  | cons b l ih =>
    intro h
    rw [List.foldl_cons, h b (List.mem_cons_self b l)]
    exact ih (fun b2 hb2 => h b2 (List.mem_cons_of_mem b hb2))

/-! ### String helpers -/

theorem string_eq_of_data {a b : String} (h : a.data = b.data) : a = b :=
  congrArg String.mk h

theorem string_data_append (a b : String) : (a ++ b).data = a.data ++ b.data := rfl

theorem string_append_empty (s : String) : s ++ "" = s :=
  string_eq_of_data (by rw [string_data_append]; exact List.append_nil _)

theorem join_data : ∀ l : List String, (String.join l).data = (l.map String.data).flatten := by
  have haux : ∀ (l : List String) (s : String),
      (l.foldl (fun r s2 => r ++ s2) s).data = s.data ++ (l.map String.data).flatten := by
    intro l
    induction l with
    | nil => intro s; simp
    | cons x l ih =>
      intro s
      rw [List.foldl_cons, ih (s ++ x), List.map_cons, List.flatten_cons, string_data_append,
        List.append_assoc]
  intro l
  exact haux l ""

theorem join_append (a b : List String) :
    String.join (a ++ b) = String.join a ++ String.join b :=
  string_eq_of_data (by simp [join_data, string_data_append])

theorem linesAux_flatten :
    ∀ cs acc : List Char, (linesAux cs acc).flatten = acc.reverse ++ cs := by
  intro cs
  induction cs with
  | nil =>
    intro acc
    by_cases h : acc = [] <;> simp [linesAux, h]
  | cons c cs ih =>
    intro acc
    by_cases h : c = '\n'
    · simp only [linesAux, if_pos h, List.flatten_cons, ih []]
      simp [h]
    · simp only [linesAux, if_neg h, ih (c :: acc)]
      simp

theorem join_pythonLines (s : String) : String.join (pythonLines s) = s := by
  apply string_eq_of_data
  rw [join_data]
  unfold pythonLines
  rw [List.map_map]
  have hid : (String.data ∘ String.mk) = id := rfl
  rw [hid, List.map_id]
  rw [linesAux_flatten s.data []]
  rfl

/-! ### Lookup helpers -/

theorem lookup_mapGuard (k0 k : Key) (g : Entry → Entry) :
    ∀ st : Store,
      lookup (st.map (fun kv => if kv.1 = k0 then (kv.1, g kv.2) else kv)) k
        = if k = k0 then (lookup st k).map g else lookup st k := by
  intro st
  induction st with
  | nil =>
    by_cases h : k = k0 <;> simp [lookup, h]
  | cons kv rest ih =>
    rw [List.map_cons]
    by_cases h1 : kv.1 = k0
    · by_cases h2 : kv.1 = k
      · have hk : k = k0 := h2.symm.trans h1
        rw [if_pos h1]
        simp only [lookup]
        rw [if_pos h2, if_pos hk, if_pos h2]
        rfl
      · rw [if_pos h1]
        simp only [lookup]
        rw [if_neg h2, ih]
        by_cases hk : k = k0
        · rw [if_pos hk, if_pos hk, if_neg h2]
        · rw [if_neg hk, if_neg hk, if_neg h2]
    · by_cases h2 : kv.1 = k
      · have hk : ¬ k = k0 := fun he => h1 (h2.trans he)
        rw [if_neg h1]
        simp only [lookup]
        rw [if_pos h2, if_neg hk, if_pos h2]
      · rw [if_neg h1]
        simp only [lookup]
        rw [if_neg h2, ih]
        by_cases hk : k = k0
        · rw [if_pos hk, if_pos hk, if_neg h2]
        · rw [if_neg hk, if_neg hk, if_neg h2]

theorem lookup_append (st1 st2 : Store) (k : Key) :
    lookup (st1 ++ st2) k
      = match lookup st1 k with
        | some e => some e
        | none => lookup st2 k := by
  induction st1 with
  | nil => simp [lookup]
  | cons kv rest ih =>
    by_cases h : kv.1 = k <;> simp [lookup, h, ih]

theorem lookup_none_iff (k : Key) :
    ∀ st : Store, lookup st k = none ↔ k ∉ st.map Prod.fst := by
  intro st
  induction st with
  | nil => simp [lookup]
  | cons kv rest ih =>
    by_cases h : kv.1 = k
    · simp [lookup, h, ih]
    · simp [lookup, h, ih, Ne.symm h]

theorem lookup_mem_of_isSome {st : Store} {k : Key} (h : (lookup st k).isSome = true) :
    k ∈ st.map Prod.fst := by
  by_contra hmem
  rw [← lookup_none_iff k st] at hmem
  rw [hmem] at h
  cases h

/-! ### Pointwise view of the demotion loops -/

theorem set900_idem (kv : Key × Entry) : set900 (set900 kv) = set900 kv := rfl

theorem set900_fst (kv : Key × Entry) : (set900 kv).1 = kv.1 := rfl

theorem demoteFor_eq_map (st : Store) (ch : String) :
    demoteFor st ch = st.map (demoteEntry ch) := by
  have hstep : ∀ (st1 : Store) (c1 : Char),
      valid_input_chars_without_x.data.foldl
        (fun st2 c2 => setWeight st2 (String.singleton c1 ++ String.singleton c2, ch) 900)
        (setWeight st1 (String.singleton c1, ch) 900)
      = st1.map (updFor ch c1) := by
    intro st1 c1
    have h1 : (fun st2 c2 =>
        setWeight st2 (String.singleton c1 ++ String.singleton c2, ch) 900)
        = fun st2 c2 => st2.map (upd2 ch c1 c2) := rfl
    have h2 : setWeight st1 (String.singleton c1, ch) 900 = st1.map (upd1 ch c1) := rfl
    rw [h1, h2, foldl_map_comm2]
    apply List.map_congr_left
    intro a _
    unfold updFor
    rfl
  unfold demoteFor
  simp only [hstep]
  rw [foldl_map_comm]
  apply List.map_congr_left
  intro a _
  unfold demoteEntry
  rfl

theorem foldl_id_or_set900 {β : Type} (f : β → Key × Entry → Key × Entry)
    (hf : ∀ b x, f b x = x ∨ f b x = set900 x) :
    ∀ (l : List β) (x : Key × Entry),
      l.foldl (fun x b => f b x) x = x ∨ l.foldl (fun x b => f b x) x = set900 x := by
  intro l
  induction l with
  | nil => intro x; left; rfl
  | cons b l ih =>
    intro x
    rw [List.foldl_cons]
    rcases hf b x with h | h
    · rw [h]; exact ih x
    · rw [h]
      rcases ih (set900 x) with h2 | h2
      · right; exact h2
      · right; rw [set900_idem] at h2; exact h2

theorem upd1_or (ch : String) (c1 : Char) (kv : Key × Entry) :
    upd1 ch c1 kv = kv ∨ upd1 ch c1 kv = set900 kv := by
  unfold upd1; split
  · right; rfl
  · left; rfl

theorem upd2_or (ch : String) (c1 c2 : Char) (kv : Key × Entry) :
    upd2 ch c1 c2 kv = kv ∨ upd2 ch c1 c2 kv = set900 kv := by
  unfold upd2; split
  · right; rfl
  · left; rfl

theorem updFor_or (ch : String) (c1 : Char) (kv : Key × Entry) :
    updFor ch c1 kv = kv ∨ updFor ch c1 kv = set900 kv := by
  unfold updFor
  rcases upd1_or ch c1 kv with h1 | h1 <;> rw [h1]
  · exact foldl_id_or_set900 (fun c2 => upd2 ch c1 c2) (fun c2 => upd2_or ch c1 c2) _ kv
  · rcases foldl_id_or_set900 (fun c2 => upd2 ch c1 c2) (fun c2 => upd2_or ch c1 c2) _
        (set900 kv) with h2 | h2
    · right; exact h2
    · right; rw [set900_idem] at h2; exact h2

theorem demoteEntry_or (ch : String) (kv : Key × Entry) :
    demoteEntry ch kv = kv ∨ demoteEntry ch kv = set900 kv :=
  foldl_id_or_set900 (updFor ch) (updFor_or ch) _ kv

theorem demoteEntry_fst (ch : String) (kv : Key × Entry) : (demoteEntry ch kv).1 = kv.1 := by
  rcases demoteEntry_or ch kv with h | h <;> rw [h] <;> rfl

theorem updFor_fire1 (ch : String) (c1 : Char) (kv : Key × Entry)
    (hk : kv.1 = (String.singleton c1, ch)) : updFor ch c1 kv = set900 kv := by
  unfold updFor upd1
  rw [if_pos hk]
  rcases foldl_id_or_set900 (fun c2 => upd2 ch c1 c2) (fun c2 => upd2_or ch c1 c2) _
      (set900 kv) with h | h
  · exact h
  · rw [set900_idem] at h; exact h

theorem updFor_fire2 (ch : String) (c1 c2 : Char) (kv : Key × Entry)
    (hk : kv.1 = (String.singleton c1 ++ String.singleton c2, ch))
    (hc2 : c2 ∈ valid_input_chars_without_x.data) : updFor ch c1 kv = set900 kv := by
  unfold updFor upd1
  have hne : ¬ kv.1 = (String.singleton c1, ch) := by
    intro he
    have : (String.singleton c1 ++ String.singleton c2, ch) = ((String.singleton c1 : String), ch) :=
      hk ▸ he
    have hd := congrArg (fun p : Key => p.1.data) this
    simp at hd
  rw [if_neg hne]
  obtain ⟨m1, m2, hm⟩ := List.append_of_mem hc2
  rw [hm, List.foldl_append, List.foldl_cons]
  rcases foldl_id_or_set900 (fun c2 => upd2 ch c1 c2) (fun c2 => upd2_or ch c1 c2) m1 kv
      with h1 | h1 <;> rw [h1]
  · rw [show upd2 ch c1 c2 kv = set900 kv from by unfold upd2; rw [if_pos hk]]
    rcases foldl_id_or_set900 (fun c2 => upd2 ch c1 c2) (fun c2 => upd2_or ch c1 c2) m2
        (set900 kv) with h2 | h2
    · exact h2
    · rw [set900_idem] at h2; exact h2
  · rw [show upd2 ch c1 c2 (set900 kv) = set900 (set900 kv) from by
      unfold upd2; rw [if_pos (by rw [set900_fst]; exact hk)], set900_idem]
    rcases foldl_id_or_set900 (fun c2 => upd2 ch c1 c2) (fun c2 => upd2_or ch c1 c2) m2
        (set900 kv) with h2 | h2
    · exact h2
    · rw [set900_idem] at h2; exact h2

theorem demoteEntry_fire (ch : String) (kv : Key × Entry)
    (hch : kv.1.2 = ch) (hshape : targetShape kv.1.1) : demoteEntry ch kv = set900 kv := by
  obtain ⟨hlen, halpha⟩ := hshape
  have hfire : ∃ c1 ∈ valid_input_chars_without_x.data, ∀ y : Key × Entry,
      y.1 = kv.1 → updFor ch c1 y = set900 y := by
    rcases hlen with h1 | h2
    · obtain ⟨c1, hc1⟩ := List.length_eq_one.mp h1
      refine ⟨c1, halpha c1 (by rw [hc1]; exact List.mem_singleton_self c1), ?_⟩
      intro y hy
      apply updFor_fire1
      rw [hy]
      have : kv.1.1 = String.singleton c1 := string_eq_of_data (by rw [hc1]; rfl)
      rw [← hch, ← this]
    · obtain ⟨c1, c2, hc⟩ := List.length_eq_two.mp h2
      refine ⟨c1, halpha c1 (by rw [hc]; exact List.mem_cons_self _ _), ?_⟩
      intro y hy
      apply updFor_fire2 ch c1 c2
      · rw [hy]
        have : kv.1.1 = String.singleton c1 ++ String.singleton c2 :=
          string_eq_of_data (by rw [hc]; rfl)
        rw [← hch, ← this]
      · exact halpha c2 (by rw [hc]; exact List.mem_cons_of_mem _ (List.mem_singleton_self c2))
  obtain ⟨c1, hc1m, hc1⟩ := hfire
  obtain ⟨l1, l2, hl⟩ := List.append_of_mem hc1m
  unfold demoteEntry
  rw [hl, List.foldl_append, List.foldl_cons]
  rcases foldl_id_or_set900 (updFor ch) (updFor_or ch) l1 kv with h1 | h1 <;> rw [h1]
  · rw [hc1 kv rfl]
    rcases foldl_id_or_set900 (updFor ch) (updFor_or ch) l2 (set900 kv) with h2 | h2
    · exact h2
    · rw [set900_idem] at h2; exact h2
  · rw [hc1 (set900 kv) (set900_fst kv), set900_idem]
    rcases foldl_id_or_set900 (updFor ch) (updFor_or ch) l2 (set900 kv) with h2 | h2
    · exact h2
    · rw [set900_idem] at h2; exact h2

theorem demoteEntry_skip (ch : String) (kv : Key × Entry)
    (h : kv.1.2 ≠ ch ∨ ¬ targetShape kv.1.1) : demoteEntry ch kv = kv := by
  unfold demoteEntry
  apply foldl_fix
  intro c1 hc1
  unfold updFor
  have h1 : upd1 ch c1 kv = kv := by
    unfold upd1
    rw [if_neg]
    intro he
    rcases h with h | h
    · exact h (by rw [he])
    · apply h
      have hfst : kv.1.1 = String.singleton c1 := by rw [he]
      constructor
      · left; rw [hfst]; rfl
      · intro c hc
        rw [hfst] at hc
        have : c = c1 := List.mem_singleton.mp hc
        rw [this]; exact hc1
  rw [h1]
  apply foldl_fix
  intro c2 hc2
  unfold upd2
  rw [if_neg]
  intro he
  rcases h with h | h
  · exact h (by rw [he])
  · apply h
    have hfst : kv.1.1 = String.singleton c1 ++ String.singleton c2 := by rw [he]
    constructor
    · right; rw [hfst]; rfl
    · intro c hc
      rw [hfst] at hc
      rcases List.mem_pair.mp hc with rfl | rfl
      · exact hc1
      · exact hc2

/-! ### Characterization of the whole normalization pass -/

theorem normStep_ok (st : Store) (k : Key) (h : k.2.length = 1) :
    normStep st k = .ok (if pyStartsWith k.1 "x" then demoteFor st k.2 else st) := by
  unfold normStep
  rw [if_neg (by simp [h])]
  split
  · rfl
  · rfl

theorem normLoop_ok (keys : List Key) :
    ∀ st : Store, (∀ k ∈ keys, k.2.length = 1) →
      keys.foldlM normStep st
        = .ok (keys.foldl (fun st k => if pyStartsWith k.1 "x" then demoteFor st k.2 else st) st) := by
  induction keys with
  | nil => intro st _; rfl
  | cons k keys ih =>
    intro st h
    rw [foldlM_except_cons, normStep_ok st k (h k (List.mem_cons_self k keys)), except_bind_ok,
      ih _ (fun k2 hk2 => h k2 (List.mem_cons_of_mem k hk2)), List.foldl_cons]

theorem normLoop_error (keys : List Key) :
    ∀ st : Store, (∃ k ∈ keys, k.2.length ≠ 1) →
      ∃ msg, keys.foldlM normStep st = .error msg := by
  induction keys with
  | nil =>
    intro st h
    obtain ⟨k, hk, _⟩ := h
    cases hk
  | cons k keys ih =>
    intro st h
    by_cases hlen : k.2.length = 1
    · have hstep := normStep_ok st k hlen
      obtain ⟨kb, hkb, hkbl⟩ := h
      rcases List.mem_cons.mp hkb with rfl | hkb2
      · exact absurd hlen hkbl
      · obtain ⟨msg, hmsg⟩ := ih _ ⟨kb, hkb2, hkbl⟩
        exact ⟨msg, by rw [foldlM_except_cons, hstep, except_bind_ok, hmsg]⟩
    · have hstep : normStep st k = .error "name() argument 1 must be a unicode character" := by
        unfold normStep
        rw [if_pos hlen]
      refine ⟨"name() argument 1 must be a unicode character", ?_⟩
      rw [foldlM_except_cons, hstep, except_bind_error]

theorem normFold_eq_map (keys : List Key) (st : Store) :
    keys.foldl (fun st k => if pyStartsWith k.1 "x" then demoteFor st k.2 else st) st
      = st.map (normalizeEntry keys) := by
  have hstep : ∀ (st1 : Store) (k : Key),
      (if pyStartsWith k.1 "x" then demoteFor st1 k.2 else st1)
        = st1.map (normEntryStep k) := by
    intro st1 k
    by_cases h : pyStartsWith k.1 "x" = true
    · rw [if_pos h, demoteFor_eq_map]
      apply List.map_congr_left
      intro a _
      rw [show normEntryStep k a = demoteEntry k.2 a from by unfold normEntryStep; rw [if_pos h]]
    · rw [if_neg h]
      have : ∀ a : Key × Entry, normEntryStep k a = a := by
        intro a; unfold normEntryStep; rw [if_neg h]
      conv_lhs => rw [← List.map_id st1]
      apply List.map_congr_left
      intro a _
      rw [this a]
      rfl
  simp only [hstep]
  rw [foldl_map_comm]
  apply List.map_congr_left
  intro a _
  unfold normalizeEntry
  rfl

theorem normalize_ok_char {st st' : Store} (h : normalize st = .ok st') :
    st' = st.map (normalizeEntry (st.map Prod.fst)) ∧
      ∀ k ∈ st.map Prod.fst, k.2.length = 1 := by
  by_cases hlen : ∀ k ∈ st.map Prod.fst, k.2.length = 1
  · refine ⟨?_, hlen⟩
    unfold normalize at h
    rw [normLoop_ok _ st hlen, normFold_eq_map] at h
    exact (Except.ok.inj h).symm
  · exfalso
    push_neg at hlen
    obtain ⟨k, hk, hkl⟩ := hlen
    obtain ⟨msg, hmsg⟩ := normLoop_error (st.map Prod.fst) st ⟨k, hk, hkl⟩
    unfold normalize at h
    rw [hmsg] at h
    cases h

theorem normalize_ok_of_keys (st : Store) (h : ∀ k ∈ st.map Prod.fst, k.2.length = 1) :
    normalize st = .ok (st.map (normalizeEntry (st.map Prod.fst))) := by
  unfold normalize
  rw [normLoop_ok _ st h, normFold_eq_map]

theorem normalize_error_of_key (st : Store) (h : ∃ k ∈ st.map Prod.fst, k.2.length ≠ 1) :
    ∃ msg, normalize st = .error msg :=
  normLoop_error (st.map Prod.fst) st h

theorem normEntryStep_or (k : Key) (kv : Key × Entry) :
    normEntryStep k kv = kv ∨ normEntryStep k kv = set900 kv := by
  unfold normEntryStep
  split
  · exact demoteEntry_or _ kv
  · left; rfl

theorem normalizeEntry_or (keys : List Key) (kv : Key × Entry) :
    normalizeEntry keys kv = kv ∨ normalizeEntry keys kv = set900 kv :=
  foldl_id_or_set900 normEntryStep normEntryStep_or keys kv

theorem normalizeEntry_fst (keys : List Key) (kv : Key × Entry) :
    (normalizeEntry keys kv).1 = kv.1 := by
  rcases normalizeEntry_or keys kv with h | h <;> rw [h] <;> rfl

theorem normalizeEntry_fire (keys : List Key) (kv : Key × Entry)
    (hsib : xSibling keys kv.1.2) (hshape : targetShape kv.1.1) :
    normalizeEntry keys kv = set900 kv := by
  obtain ⟨k, hkm, hkx, hkch⟩ := hsib
  obtain ⟨l1, l2, hl⟩ := List.append_of_mem hkm
  unfold normalizeEntry
  rw [hl, List.foldl_append, List.foldl_cons]
  have hfirek : ∀ y : Key × Entry, y.1 = kv.1 → normEntryStep k y = set900 y := by
    intro y hy
    unfold normEntryStep
    rw [if_pos hkx]
    exact demoteEntry_fire k.2 y (by rw [hy, ← hkch]) (by rw [hy]; exact hshape)
  rcases foldl_id_or_set900 normEntryStep normEntryStep_or l1 kv with h1 | h1 <;> rw [h1]
  · rw [hfirek kv rfl]
    rcases foldl_id_or_set900 normEntryStep normEntryStep_or l2 (set900 kv) with h2 | h2
    · exact h2
    · rw [set900_idem] at h2; exact h2
  · rw [hfirek (set900 kv) (set900_fst kv), set900_idem]
    rcases foldl_id_or_set900 normEntryStep normEntryStep_or l2 (set900 kv) with h2 | h2
    · exact h2
    · rw [set900_idem] at h2; exact h2

theorem normalizeEntry_skip (keys : List Key) (kv : Key × Entry)
    (h : ¬ xSibling keys kv.1.2 ∨ ¬ targetShape kv.1.1) : normalizeEntry keys kv = kv := by
  unfold normalizeEntry
  apply foldl_fix
  intro k hk
  unfold normEntryStep
  by_cases hx : pyStartsWith k.1 "x" = true
  · rw [if_pos hx]
    apply demoteEntry_skip
    rcases h with h | h
    · left
      intro he
      exact h ⟨k, hk, hx, he.symm⟩
    · right; exact h
  · rw [if_neg hx]

theorem normalize_keys {st st' : Store} (h : normalize st = .ok st') :
    st'.map Prod.fst = st.map Prod.fst := by
  obtain ⟨hmap, _⟩ := normalize_ok_char h
  rw [hmap, List.map_map]
  apply List.map_congr_left
  intro kv _
  exact normalizeEntry_fst _ kv

theorem lookup_map_of_id_at (f : Key × Entry → Key × Entry) (key : Key)
    (hfst : ∀ kv, (f kv).1 = kv.1) (hid : ∀ kv : Key × Entry, kv.1 = key → f kv = kv) :
    ∀ st : Store, lookup (st.map f) key = lookup st key := by
  intro st
  induction st with
  | nil => rfl
  | cons kv rest ih =>
    rw [List.map_cons]
    simp only [lookup]
    rw [hfst kv]
    by_cases hk : kv.1 = key
    · rw [if_pos hk, if_pos hk, hid kv hk]
    · rw [if_neg hk, if_neg hk, ih]

/-! ### Claims about the normalization pass -/

/-- Claim C1: after the normalization pass succeeds, for every character
`ch` having some record whose input starts with the letter `x`, every record
`(k, ch)` whose input `k` has length 1 or 2 and consists only of letters of
the 25-letter alphabet (a-z without x) has weight exactly 900, regardless of
its weight before the pass. -/
theorem claim_C1 (st st' : Store) (h : normalize st = .ok st')
    (xk ch : String) (hxmem : (xk, ch) ∈ st.map Prod.fst)
    (hx : pyStartsWith xk "x" = true)
    (k : String) (e : Entry) (hrec : ((k, ch), e) ∈ st')
    (hlen : k.data.length = 1 ∨ k.data.length = 2)
    (halpha : ∀ c ∈ k.data, c ∈ valid_input_chars_without_x.data) :
    e.weight = 900 := by
  obtain ⟨hmap, _⟩ := normalize_ok_char h
  rw [hmap] at hrec
  obtain ⟨kv0, hkv0m, hkv0⟩ := List.mem_map.mp hrec
  have hfst : kv0.1 = (k, ch) := by
    rw [← normalizeEntry_fst (st.map Prod.fst) kv0, hkv0]
  have hfire := normalizeEntry_fire (st.map Prod.fst) kv0
    ⟨(xk, ch), hxmem, hx, by rw [hfst]⟩ (by rw [hfst]; exact ⟨hlen, halpha⟩)
  rw [hfire] at hkv0
  have he : (set900 kv0).2 = e := by rw [hkv0]
  rw [← he]
  rfl

theorem claim_C1_witness :
    normalize [(("xa", "m"), ⟨1000, "c"⟩), (("a", "m"), ⟨1000, ""⟩)]
      = .ok (([(("xa", "m"), ⟨1000, "c"⟩), (("a", "m"), ⟨1000, ""⟩)] : Store).map
          (normalizeEntry [("xa", "m"), ("a", "m")]))
      ∧ (Entry.mk 900 "").weight = 900 := by
  refine ⟨normalize_ok_of_keys _ (by decide), ?_⟩
  refine claim_C1 [(("xa", "m"), ⟨1000, "c"⟩), (("a", "m"), ⟨1000, ""⟩)] _
    (normalize_ok_of_keys _ (by decide)) "xa" "m" (by decide) (by decide) "a" ⟨900, ""⟩
    ?_ (Or.inl (by decide)) (by decide)
  refine List.mem_map.mpr ⟨(("a", "m"), ⟨1000, ""⟩), by decide, ?_⟩
  exact normalizeEntry_fire _ _ ⟨("xa", "m"), by decide, by decide, rfl⟩
    ⟨Or.inl (by decide), by decide⟩

/-- Claim C5: the normalization pass leaves every non-target record
unchanged: when the record's character has no x-prefixed record in the
store, or its input is not a 1- or 2-letter string over the 25-letter
alphabet, the entry stored under its key after the pass equals the entry
produced by the reading phase. -/
theorem claim_C5 (st st' : Store) (h : normalize st = .ok st') (k ch : String)
    (hcond : (¬ ∃ xk : String, (xk, ch) ∈ st.map Prod.fst ∧ pyStartsWith xk "x" = true)
      ∨ ¬ ((k.data.length = 1 ∨ k.data.length = 2) ∧
            ∀ c ∈ k.data, c ∈ valid_input_chars_without_x.data)) :
    lookup st' (k, ch) = lookup st (k, ch) := by
  obtain ⟨hmap, _⟩ := normalize_ok_char h
  rw [hmap]
  apply lookup_map_of_id_at _ _ (normalizeEntry_fst _)
  intro kv hkv
  apply normalizeEntry_skip
  rcases hcond with h1 | h1
  · left
    intro hs
    obtain ⟨k2, hk2m, hk2x, hk2c⟩ := hs
    apply h1
    refine ⟨k2.1, ?_, hk2x⟩
    have hch : k2.2 = ch := by rw [hk2c, hkv]
    have hpair : (k2.1, ch) = k2 := by rw [← hch]
    rw [hpair]
    exact hk2m
  · right
    intro hs
    apply h1
    rw [hkv] at hs
    exact hs

theorem claim_C5_witness :
    normalize [(("xa", "m"), ⟨1000, ""⟩), (("abc", "m"), ⟨500, ""⟩)]
      = .ok (([(("xa", "m"), ⟨1000, ""⟩), (("abc", "m"), ⟨500, ""⟩)] : Store).map
          (normalizeEntry (([(("xa", "m"), ⟨1000, ""⟩), (("abc", "m"), ⟨500, ""⟩)] : Store).map
            Prod.fst)))
      ∧ lookup (([(("xa", "m"), ⟨1000, ""⟩), (("abc", "m"), ⟨500, ""⟩)] : Store).map
          (normalizeEntry (([(("xa", "m"), ⟨1000, ""⟩), (("abc", "m"), ⟨500, ""⟩)] : Store).map
            Prod.fst))) ("abc", "m")
        = lookup [(("xa", "m"), ⟨1000, ""⟩), (("abc", "m"), ⟨500, ""⟩)] ("abc", "m") := by
  refine ⟨normalize_ok_of_keys _ (by decide), ?_⟩
  exact claim_C5 _ _ (normalize_ok_of_keys _ (by decide)) "abc" "m" (Or.inr (by decide))

/-- Claim C6: the normalization pass is idempotent: a store produced by a
successful pass is mapped to itself by a second pass. -/
theorem claim_C6 (st st' : Store) (h : normalize st = .ok st') :
    normalize st' = .ok st' := by
  obtain ⟨hmap, hlen⟩ := normalize_ok_char h
  have hkeys := normalize_keys h
  have hlen' : ∀ k ∈ st'.map Prod.fst, k.2.length = 1 := by
    rw [hkeys]; exact hlen
  rw [normalize_ok_of_keys st' hlen']
  congr 1
  rw [hkeys]
  conv_lhs => rw [hmap]
  conv_rhs => rw [hmap]
  rw [List.map_map]
  apply List.map_congr_left
  intro kv _
  show normalizeEntry (st.map Prod.fst) (normalizeEntry (st.map Prod.fst) kv)
    = normalizeEntry (st.map Prod.fst) kv
  by_cases hc : xSibling (st.map Prod.fst) kv.1.2 ∧ targetShape kv.1.1
  · rw [normalizeEntry_fire _ kv hc.1 hc.2,
      normalizeEntry_fire _ (set900 kv) hc.1 hc.2, set900_idem]
  · have hor := not_and_or.mp hc
    rw [normalizeEntry_skip _ kv hor, normalizeEntry_skip _ kv hor]

theorem claim_C6_witness :
    normalize [(("ab", "m"), ⟨1000, ""⟩), (("q", "n"), ⟨700, "z"⟩)]
      = .ok [(("ab", "m"), ⟨1000, ""⟩), (("q", "n"), ⟨700, "z"⟩)]
      ∧ normalize [(("ab", "m"), ⟨1000, ""⟩), (("q", "n"), ⟨700, "z"⟩)]
        = .ok [(("ab", "m"), ⟨1000, ""⟩), (("q", "n"), ⟨700, "z"⟩)] :=
  ⟨rfl, claim_C6 [(("ab", "m"), ⟨1000, ""⟩), (("q", "n"), ⟨700, "z"⟩)]
    [(("ab", "m"), ⟨1000, ""⟩), (("q", "n"), ⟨700, "z"⟩)] rfl⟩

/-- Claim C7: the normalization pass preserves the keys of the store: the
list of `(inputKey, character)` pairs after the pass equals the list before
it, so no record is created or deleted. -/
theorem claim_C7 (st st' : Store) (h : normalize st = .ok st') :
    st'.map Prod.fst = st.map Prod.fst :=
  normalize_keys h

theorem claim_C7_witness :
    normalize [(("ab", "m"), ⟨1000, ""⟩), (("q", "n"), ⟨700, "z"⟩)]
      = .ok [(("ab", "m"), ⟨1000, ""⟩), (("q", "n"), ⟨700, "z"⟩)]
      ∧ ([(("ab", "m"), ⟨1000, ""⟩), (("q", "n"), ⟨700, "z"⟩)] : Store).map Prod.fst
        = ([(("ab", "m"), ⟨1000, ""⟩), (("q", "n"), ⟨700, "z"⟩)] : Store).map Prod.fst :=
  ⟨rfl, claim_C7 [(("ab", "m"), ⟨1000, ""⟩), (("q", "n"), ⟨700, "z"⟩)]
    [(("ab", "m"), ⟨1000, ""⟩), (("q", "n"), ⟨700, "z"⟩)] rfl⟩

/-! ### The duplicate merge of the reading phase -/

theorem combineMax_none_right (a : Option Int) : combineMax a none = a := by
  cases a <;> rfl

theorem combineMax_assoc (a b c : Option Int) :
    combineMax (combineMax a b) c = combineMax a (combineMax b c) := by
  cases a <;> cases b <;> cases c <;> simp [combineMax, max_assoc]

theorem listMax_cons (w : Int) (ws : List Int) :
    listMax (w :: ws) = combineMax (some w) (listMax ws) := by
  cases h : listMax ws <;> simp [listMax, combineMax, h]

theorem orFirst_none_right (a : Option String) : orFirst a none = a := by
  cases a <;> rfl

theorem orFirst_assoc (a b c : Option String) :
    orFirst (orFirst a b) c = orFirst a (orFirst b c) := by
  cases a <;> cases b <;> cases c <;> rfl

theorem weightAt_insertRow (st : Store) (r : Row) (k : Key) :
    weightAt (insertRow st r) k
      = if k = rowKey r then combineMax (weightAt st k) (some r.weight)
        else weightAt st k := by
  unfold insertRow
  by_cases hc : containsKey st (rowKey r) = true
  · rw [if_pos hc]
    unfold weightAt
    rw [lookup_mapGuard (rowKey r) k (fun e => ⟨max r.weight e.weight, e.comment⟩) st]
    by_cases hk : k = rowKey r
    · rw [if_pos hk, if_pos hk]
      subst hk
      obtain ⟨e, he⟩ := Option.isSome_iff_exists.mp hc
      rw [he]
      simp [combineMax, max_comm]
    · rw [if_neg hk, if_neg hk]
  · rw [if_neg hc]
    unfold weightAt
    rw [lookup_append]
    have hnone : lookup st (rowKey r) = none := by
      cases hl : lookup st (rowKey r) with
      | none => rfl
      | some e => exact absurd (by unfold containsKey; rw [hl]; rfl) hc
    by_cases hk : k = rowKey r
    · subst hk
      rw [hnone]
      simp [lookup, combineMax]
    · have h2 : lookup [(rowKey r, (⟨r.weight, r.comment⟩ : Entry))] k = none := by
        simp [lookup, Ne.symm hk]
      rw [if_neg hk]
      cases hl : lookup st k with
      | none => rw [h2]
      | some e => rfl

theorem commentAt_insertRow (st : Store) (r : Row) (k : Key) :
    commentAt (insertRow st r) k
      = if k = rowKey r then orFirst (commentAt st k) (some r.comment)
        else commentAt st k := by
  unfold insertRow
  by_cases hc : containsKey st (rowKey r) = true
  · rw [if_pos hc]
    unfold commentAt
    rw [lookup_mapGuard (rowKey r) k (fun e => ⟨max r.weight e.weight, e.comment⟩) st]
    by_cases hk : k = rowKey r
    · rw [if_pos hk, if_pos hk]
      subst hk
      obtain ⟨e, he⟩ := Option.isSome_iff_exists.mp hc
      rw [he]
      rfl
    · rw [if_neg hk, if_neg hk]
  · rw [if_neg hc]
    unfold commentAt
    rw [lookup_append]
    have hnone : lookup st (rowKey r) = none := by
      cases hl : lookup st (rowKey r) with
      | none => rfl
      | some e => exact absurd (by unfold containsKey; rw [hl]; rfl) hc
    by_cases hk : k = rowKey r
    · subst hk
      rw [hnone]
      simp [lookup, orFirst]
    · have h2 : lookup [(rowKey r, (⟨r.weight, r.comment⟩ : Entry))] k = none := by
        simp [lookup, Ne.symm hk]
      rw [if_neg hk]
      cases hl : lookup st k with
      | none => rw [h2]
      | some e => rfl

theorem weightAt_readRows (rows : List Row) :
    ∀ (st : Store) (k : Key),
      weightAt (readRows st rows) k
        = combineMax (weightAt st k)
            (listMax ((rows.filter (fun r => decide (rowKey r = k))).map Row.weight)) := by
  induction rows with
  | nil =>
    intro st k
    simp [readRows, combineMax_none_right, listMax]
  | cons r rest ih =>
    intro st k
    have hstep : readRows st (r :: rest) = readRows (insertRow st r) rest := rfl
    rw [hstep, ih, weightAt_insertRow]
    by_cases hk : rowKey r = k
    · rw [List.filter_cons_of_pos (by simp [hk]), List.map_cons, listMax_cons,
        if_pos hk.symm, combineMax_assoc]
    · rw [List.filter_cons_of_neg (by simp [hk]), if_neg (fun h => hk h.symm)]

theorem commentAt_readRows (rows : List Row) :
    ∀ (st : Store) (k : Key),
      commentAt (readRows st rows) k
        = orFirst (commentAt st k)
            ((rows.find? (fun r => decide (rowKey r = k))).map Row.comment) := by
  induction rows with
  | nil =>
    intro st k
    simp [readRows, orFirst_none_right]
  | cons r rest ih =>
    intro st k
    have hstep : readRows st (r :: rest) = readRows (insertRow st r) rest := rfl
    rw [hstep, ih, commentAt_insertRow]
    by_cases hk : rowKey r = k
    · rw [List.find?_cons_of_pos _ (by simp [hk]), if_pos hk.symm, orFirst_assoc]
      have : orFirst (some r.comment)
          ((rest.find? (fun r2 => decide (rowKey r2 = k))).map Row.comment)
          = some r.comment := rfl
      rw [this]
      rfl
    · rw [List.find?_cons_of_neg _ (by simp [hk]), if_neg (fun h => hk h.symm)]

theorem insertRow_keys (st : Store) (r : Row) :
    (insertRow st r).map Prod.fst
      = if containsKey st (rowKey r) = true then st.map Prod.fst
        else st.map Prod.fst ++ [rowKey r] := by
  unfold insertRow
  by_cases hc : containsKey st (rowKey r) = true
  · rw [if_pos hc, if_pos hc, List.map_map]
    apply List.map_congr_left
    intro kv _
    show (if kv.1 = rowKey r then (kv.1, _) else kv).1 = kv.1
    split <;> rfl
  · rw [if_neg hc, if_neg hc, List.map_append]
    rfl

theorem readRows_keys_nodup (rows : List Row) :
    ∀ st : Store, (st.map Prod.fst).Nodup → ((readRows st rows).map Prod.fst).Nodup := by
  induction rows with
  | nil => intro st h; exact h
  | cons r rest ih =>
    intro st h
    have hstep : readRows st (r :: rest) = readRows (insertRow st r) rest := rfl
    rw [hstep]
    apply ih
    rw [insertRow_keys]
    by_cases hc : containsKey st (rowKey r) = true
    · rw [if_pos hc]; exact h
    · rw [if_neg hc]
      have hmem : rowKey r ∉ st.map Prod.fst := by
        rw [← lookup_none_iff]
        cases hl : lookup st (rowKey r) with
        | none => rfl
        | some e => exact absurd (by unfold containsKey; rw [hl]; rfl) hc
      simp [List.nodup_append, h, hmem]

/-! ### Claims about the duplicate merge -/

/-- Claim C2: after reading any list of table rows into the empty store, the
`(inputKey, character)` pairs are unique, and the weight stored under any
key is the maximum of the weights of all rows carrying that key (and absent
when no row carries it), so two duplicate lines merge to `max(w1, w2)` and
further duplicates keep merging by maximum. -/
theorem claim_C2 (rows : List Row) (k : Key) :
    ((readRows [] rows).map Prod.fst).Nodup ∧
      (lookup (readRows [] rows) k).map Entry.weight
        = listMax ((rows.filter (fun r => decide (rowKey r = k))).map Row.weight) := by
  constructor
  · exact readRows_keys_nodup rows [] (by simp)
  · have h := weightAt_readRows rows [] k
    unfold weightAt at h
    rw [show lookup ([] : Store) k = none from rfl] at h
    simpa [combineMax] using h

/-- Claim C9: when duplicate rows for the same `(inputKey, character)` are
read, only the weight is merged: the comment stored at the end of reading is
the comment of the first row with that key, and the comments of all later
duplicate rows are discarded. -/
theorem claim_C9 (rows : List Row) (k : Key) :
    (lookup (readRows [] rows) k).map Entry.comment
      = (rows.find? (fun r => decide (rowKey r = k))).map Row.comment := by
  have h := commentAt_readRows rows [] k
  unfold commentAt at h
  rw [show lookup ([] : Store) k = none from rfl] at h
  simpa [orFirst] using h

/-! ### The sort order of the write phase -/

theorem sortKey_lt_iff (a b : Key × Entry) : sortKey a < sortKey b ↔ recordBefore a b := by
  unfold sortKey recordBefore
  simp only [Prod.Lex.lt_iff, neg_lt_neg_iff, neg_inj]

theorem char_toNat_inj {c1 c2 : Char} (h : c1.toNat = c2.toNat) : c1 = c2 := by
  have h1 : Char.ofNat c1.toNat = Char.ofNat c2.toNat := by rw [h]
  rwa [Char.ofNat_toNat, Char.ofNat_toNat] at h1

theorem sortKey_inj_key {a b : Key × Entry} (ha : a.1.2.data.length = 1)
    (hb : b.1.2.data.length = 1) (h : sortKey a = sortKey b) : a.1 = b.1 := by
  unfold sortKey at h
  rw [toLex_inj] at h
  obtain ⟨h1, h2⟩ := Prod.ext_iff.mp h
  rw [toLex_inj] at h2
  obtain ⟨_, hcp⟩ := Prod.ext_iff.mp h2
  obtain ⟨c1, hc1⟩ := List.length_eq_one.mp ha
  obtain ⟨c2, hc2⟩ := List.length_eq_one.mp hb
  unfold codePoint at hcp
  rw [hc1, hc2] at hcp
  simp only [List.headD_cons] at hcp
  have hcc : c1 = c2 := char_toNat_inj hcp
  have hchar : a.1.2 = b.1.2 := string_eq_of_data (by rw [hc1, hc2, hcc])
  exact Prod.ext h1 hchar

theorem pairwise_and_of {α : Type} {R S : α → α → Prop} :
    ∀ {l : List α}, l.Pairwise R → l.Pairwise S → l.Pairwise (fun a b => R a b ∧ S a b) := by
  intro l
  induction l with
  | nil => intro _ _; exact List.Pairwise.nil
  | cons a l ih =>
    intro hr hs
    rw [List.pairwise_cons] at hr hs ⊢
    exact ⟨fun b hb => ⟨hr.1 b hb, hs.1 b hb⟩, ih hr.2 hs.2⟩

/-- Claim C3: for a store with unique keys and single-code-point characters,
the sorted table body is strictly ordered by inputKey ascending, weight
descending, then character code point ascending, and re-sorting the sorted
body by the same key is a no-op. -/
theorem claim_C3 (st : Store) (hnd : (st.map Prod.fst).Nodup)
    (hlen : ∀ kv ∈ st, kv.1.2.data.length = 1) :
    (sortRecords st).Pairwise recordBefore
      ∧ sortRecords (sortRecords st) = sortRecords st := by
  constructor
  · have hsorted : (sortRecords st).Pairwise recordRel :=
      List.sorted_insertionSort recordRel st
    have hperm : List.Perm (sortRecords st) st := List.perm_insertionSort recordRel st
    have hnd2 : ((sortRecords st).map Prod.fst).Nodup :=
      ((hperm.map Prod.fst).nodup_iff).mpr hnd
    have hne : (sortRecords st).Pairwise (fun a b => a.1 ≠ b.1) :=
      List.pairwise_map.mp hnd2
    have hboth := pairwise_and_of hsorted hne
    have hmemlen : ∀ kv ∈ sortRecords st, kv.1.2.data.length = 1 :=
      fun kv hkv => hlen kv (hperm.subset hkv)
    have hmem := List.Pairwise.and_mem.mp hboth
    refine hmem.imp ?_
    intro a b hab
    obtain ⟨hma, hmb, hrel, hne2⟩ := hab
    rcases lt_or_eq_of_le hrel with hlt | heq
    · exact (sortKey_lt_iff a b).mp hlt
    · exact absurd (sortKey_inj_key (hmemlen a hma) (hmemlen b hmb) heq) hne2
  · exact List.Sorted.insertionSort_eq (List.sorted_insertionSort recordRel st)

theorem claim_C3_witness :
    (([(("b", "u"), ⟨1, ""⟩), (("a", "v"), ⟨2, ""⟩), (("a", "u"), ⟨2, "z"⟩)] : Store).map
        Prod.fst).Nodup
    ∧ (∀ kv ∈ ([(("b", "u"), ⟨1, ""⟩), (("a", "v"), ⟨2, ""⟩),
          (("a", "u"), ⟨2, "z"⟩)] : Store), kv.1.2.data.length = 1)
    ∧ ((sortRecords [(("b", "u"), ⟨1, ""⟩), (("a", "v"), ⟨2, ""⟩),
          (("a", "u"), ⟨2, "z"⟩)]).Pairwise recordBefore
        ∧ sortRecords (sortRecords [(("b", "u"), ⟨1, ""⟩), (("a", "v"), ⟨2, ""⟩),
            (("a", "u"), ⟨2, "z"⟩)])
          = sortRecords [(("b", "u"), ⟨1, ""⟩), (("a", "v"), ⟨2, ""⟩),
              (("a", "u"), ⟨2, "z"⟩)]) :=
  ⟨by decide, by decide, claim_C3 _ (by decide) (by decide)⟩

/-! ### The reading loop, phase by phase -/

theorem readLine_head (acc : ReadAcc) (l : String) (hh : acc.readingHead = true)
    (hl : pyStartsWith l "BEGIN_TABLE" = false) :
    readLine acc l = .ok { acc with head := acc.head ++ [l] } := by
  unfold readLine
  rw [hh, hl]
  rfl

theorem readLine_marker (acc : ReadAcc) (l : String) (hh : acc.readingHead = true)
    (hl : pyStartsWith l "BEGIN_TABLE" = true) :
    readLine acc l
      = .ok { acc with head := acc.head ++ ["BEGIN_TABLE\n"], readingHead := false } := by
  unfold readLine
  rw [hh, hl]
  rfl

theorem readLine_table_ok (acc : ReadAcc) (l : String) (r : Row)
    (hh : acc.readingHead = false) (ht : acc.readingTable = true)
    (hend : pyStartsWith l "END_TABLE" = false) (hp : parseTableLine l = .ok r) :
    readLine acc l = .ok { acc with table := insertRow acc.table r } := by
  unfold readLine
  rw [hh, ht, hend, hp]
  rfl

theorem readLine_table_error (acc : ReadAcc) (l : String) (e : String)
    (hh : acc.readingHead = false) (ht : acc.readingTable = true)
    (hend : pyStartsWith l "END_TABLE" = false) (hp : parseTableLine l = .error e) :
    readLine acc l = .error e := by
  unfold readLine
  rw [hh, ht, hend, hp]
  rfl

theorem readLine_tail (acc : ReadAcc) (l : String) (hh : acc.readingHead = false)
    (hc : acc.readingTable = false ∨ pyStartsWith l "END_TABLE" = true) :
    readLine acc l = .ok { acc with readingTable := false, tail := acc.tail ++ [l] } := by
  unfold readLine
  rcases hc with ht | hsw
  · rw [hh, ht]
    rfl
  · rw [hh, hsw]
    simp

theorem foldl_head (ls : List String) :
    ∀ acc : ReadAcc, acc.readingHead = true →
      (∀ l ∈ ls, pyStartsWith l "BEGIN_TABLE" = false) →
      ls.foldlM readLine acc = .ok { acc with head := acc.head ++ ls } := by
  induction ls with
  | nil =>
    intro acc _ _
    show Except.ok acc = _
    rw [List.append_nil]
  | cons l ls ih =>
    intro acc hh hl
    rw [foldlM_except_cons, readLine_head acc l hh (hl l (List.mem_cons_self l ls)),
      except_bind_ok,
      ih { acc with head := acc.head ++ [l] } hh
        (fun l2 h2 => hl l2 (List.mem_cons_of_mem l h2))]
    simp [List.append_assoc]

theorem foldl_tail (ls : List String) :
    ∀ acc : ReadAcc, acc.readingHead = false → acc.readingTable = false →
      ls.foldlM readLine acc = .ok { acc with tail := acc.tail ++ ls } := by
  induction ls with
  | nil =>
    intro acc _ _
    show Except.ok acc = _
    rw [List.append_nil]
  | cons l ls ih =>
    intro acc hh ht
    obtain ⟨ah, atab, atl, arh, art⟩ := acc
    have hh2 : arh = false := hh
    have ht2 : art = false := ht
    subst hh2
    subst ht2
    rw [foldlM_except_cons, readLine_tail _ l rfl (Or.inl rfl), except_bind_ok,
      ih (ReadAcc.mk ah atab (atl ++ [l]) false false) rfl rfl]
    simp [List.append_assoc]

theorem foldl_body (body : List String) :
    ∀ acc : ReadAcc, acc.readingHead = false → acc.readingTable = true →
      (∀ l ∈ body, pyStartsWith l "END_TABLE" = false ∧ ∃ r, parseTableLine l = .ok r) →
      ∃ rows : List Row,
        body.foldlM readLine acc = .ok { acc with table := readRows acc.table rows }
          ∧ ∀ r ∈ rows, ∃ l ∈ body, parseTableLine l = .ok r := by
  induction body with
  | nil =>
    intro acc _ _ _
    exact ⟨[], rfl, by simp⟩
  | cons l body ih =>
    intro acc hh ht hl
    obtain ⟨hend, r, hr⟩ := hl l (List.mem_cons_self l body)
    obtain ⟨rows, heq, hsrc⟩ := ih { acc with table := insertRow acc.table r } hh ht
      (fun l2 h2 => hl l2 (List.mem_cons_of_mem l h2))
    refine ⟨r :: rows, ?_, ?_⟩
    · rw [foldlM_except_cons, readLine_table_ok acc l r hh ht hend hr, except_bind_ok, heq]
      rfl
    · intro r2 h2
      rcases List.mem_cons.mp h2 with rfl | h3
      · exact ⟨l, List.mem_cons_self l body, hr⟩
      · obtain ⟨l2, hl2, hp2⟩ := hsrc r2 h3
        exact ⟨l2, List.mem_cons_of_mem l hl2, hp2⟩

theorem insertRow_keys_mono (st : Store) (r : Row) :
    ∀ k ∈ st.map Prod.fst, k ∈ (insertRow st r).map Prod.fst := by
  intro k hk
  rw [insertRow_keys]
  split
  · exact hk
  · exact List.mem_append_left _ hk

theorem insertRow_self_mem (st : Store) (r : Row) :
    rowKey r ∈ (insertRow st r).map Prod.fst := by
  rw [insertRow_keys]
  split
  case isTrue h => exact lookup_mem_of_isSome h
  case isFalse h => exact List.mem_append_right _ (List.mem_singleton_self _)

theorem readLine_table_mono {acc : ReadAcc} {l : String} {acc2 : ReadAcc}
    (h : readLine acc l = .ok acc2) :
    ∀ k ∈ acc.table.map Prod.fst, k ∈ acc2.table.map Prod.fst := by
  unfold readLine at h
  split at h
  · have h2 := Except.ok.inj h
    subst h2
    intro k hk
    exact hk
  · split at h
    · have h2 := Except.ok.inj h
      subst h2
      intro k hk
      exact hk
    · split at h
      · split at h
        · have h2 := Except.ok.inj h
          subst h2
          intro k hk
          exact insertRow_keys_mono acc.table _ k hk
        · cases h
      · have h2 := Except.ok.inj h
        subst h2
        intro k hk
        exact hk

theorem foldlM_table_mono (ls : List String) :
    ∀ {acc accF : ReadAcc}, ls.foldlM readLine acc = .ok accF →
      ∀ k ∈ acc.table.map Prod.fst, k ∈ accF.table.map Prod.fst := by
  induction ls with
  | nil =>
    intro acc accF h
    have h2 : acc = accF := Except.ok.inj h
    subst h2
    intro k hk
    exact hk
  | cons l ls ih =>
    intro acc accF h
    rw [foldlM_except_cons] at h
    cases hstep : readLine acc l with
    | error e =>
      rw [hstep, except_bind_error] at h
      cases h
    | ok acc1 =>
      rw [hstep, except_bind_ok] at h
      intro k hk
      exact ih h k (readLine_table_mono hstep k hk)

theorem readRows_char_len (rows : List Row) (hrows : ∀ r ∈ rows, r.character.length = 1) :
    ∀ (st : Store), (∀ k ∈ st.map Prod.fst, k.2.length = 1) →
      ∀ k ∈ (readRows st rows).map Prod.fst, k.2.length = 1 := by
  induction rows with
  | nil => intro st h; exact h
  | cons r rest ih =>
    intro st h
    have hstep : readRows st (r :: rest) = readRows (insertRow st r) rest := rfl
    rw [hstep]
    refine ih (fun r2 h2 => hrows r2 (List.mem_cons_of_mem r h2)) _ ?_
    intro k hk
    rw [insertRow_keys] at hk
    by_cases hc : containsKey st (rowKey r) = true
    · rw [if_pos hc] at hk
      exact h k hk
    · rw [if_neg hc] at hk
      rcases List.mem_append.mp hk with h2 | h2
      · exact h k h2
      · have h3 : k = rowKey r := List.mem_singleton.mp h2
        rw [h3]
        exact hrows r (List.mem_cons_self r rest)

/-! ### Malformed table lines -/

theorem tableRegion_cons_of_end (l : String) (rest : List String)
    (h : pyStartsWith l "END_TABLE" = true) : tableRegion (l :: rest) = [] := by
  simp [tableRegion, List.takeWhile_cons, h]

theorem tableRegion_cons_of_not (l : String) (rest : List String)
    (h : pyStartsWith l "END_TABLE" = false) :
    tableRegion (l :: rest) = l :: tableRegion rest := by
  simp [tableRegion, List.takeWhile_cons, h]

theorem malformed_parse (l : String) (h : malformedLine l) :
    (∃ msg, parseTableLine l = .error msg)
      ∨ ∃ r, parseTableLine l = .ok r ∧ r.character.length ≠ 1 := by
  unfold malformedLine at h
  rcases hf : tabFields l with _ | ⟨a, _ | ⟨b, _ | ⟨c, _ | ⟨d, rest⟩⟩⟩⟩
  · left
    exact ⟨"wrong number of values to unpack in table line", by simp [parseTableLine, hf]⟩
  · left
    exact ⟨"wrong number of values to unpack in table line", by simp [parseTableLine, hf]⟩
  · left
    exact ⟨"wrong number of values to unpack in table line", by simp [parseTableLine, hf]⟩
  · rw [hf] at h
    simp only [List.length_cons, List.length_nil, List.getD_cons_succ, List.getD_cons_zero] at h
    rcases h with ⟨h3, _⟩ | h | h
    · exact absurd (by omega) h3
    · left
      exact ⟨"invalid literal for int with base 10: " ++ c, by simp [parseTableLine, hf, h]⟩
    · cases hp : parseInt? c with
      | none =>
        exact Or.inl ⟨"invalid literal for int with base 10: " ++ c,
          by simp [parseTableLine, hf, hp]⟩
      | some n =>
        right
        exact ⟨⟨a, b, n, ""⟩, by simp [parseTableLine, hf, hp], h⟩
  · rcases rest with _ | ⟨e2, rest⟩
    · rw [hf] at h
      simp only [List.length_cons, List.length_nil, List.getD_cons_succ,
        List.getD_cons_zero] at h
      rcases h with ⟨_, h4⟩ | h | h
      · exact absurd (by omega) h4
      · left
        exact ⟨"invalid literal for int with base 10: " ++ c, by simp [parseTableLine, hf, h]⟩
      · cases hp : parseInt? c with
        | none =>
          exact Or.inl ⟨"invalid literal for int with base 10: " ++ c,
            by simp [parseTableLine, hf, hp]⟩
        | some n =>
          right
          exact ⟨⟨a, b, n, d⟩, by simp [parseTableLine, hf, hp], h⟩
    · left
      refine ⟨"wrong number of values to unpack in table line", ?_⟩
      have hpad : (if (a :: b :: c :: d :: e2 :: rest).length < 4
            then (a :: b :: c :: d :: e2 :: rest) ++ [""]
            else a :: b :: c :: d :: e2 :: rest)
          = a :: b :: c :: d :: e2 :: rest := by
        rw [if_neg]
        simp only [List.length_cons]
        omega
      simp only [parseTableLine, hf]
      rw [hpad]

/-! ### Reading a table region containing a malformed line fails -/

theorem foldl_region_error (rest : List String) :
    ∀ acc : ReadAcc, acc.readingHead = false → acc.readingTable = true →
      (∃ l ∈ tableRegion rest, malformedLine l) →
      (∃ msg, rest.foldlM readLine acc = .error msg)
      ∨ (∃ accF, rest.foldlM readLine acc = .ok accF
          ∧ ∃ k ∈ accF.table.map Prod.fst, k.2.length ≠ 1) := by
  induction rest with
  | nil =>
    intro acc _ _ hbad
    obtain ⟨bad, hmem, _⟩ := hbad
    simp [tableRegion] at hmem
  | cons l rest ih =>
    intro acc hh ht hbad
    cases hend : pyStartsWith l "END_TABLE" with
    | true =>
      rw [tableRegion_cons_of_end l rest hend] at hbad
      obtain ⟨bad, hmem, _⟩ := hbad
      cases hmem
    | false =>
      rw [tableRegion_cons_of_not l rest hend] at hbad
      cases hp : parseTableLine l with
      | error e =>
        left
        exact ⟨e, by rw [foldlM_except_cons,
          readLine_table_error acc l e hh ht hend hp, except_bind_error]⟩
      | ok r =>
        have hstep := readLine_table_ok acc l r hh ht hend hp
        have hfold : (l :: rest).foldlM readLine acc
            = rest.foldlM readLine { acc with table := insertRow acc.table r } := by
          rw [foldlM_except_cons, hstep, except_bind_ok]
        obtain ⟨bad, hmem, hbadm⟩ := hbad
        rcases List.mem_cons.mp hmem with rfl | hmem2
        · rcases malformed_parse bad hbadm with ⟨msg, hpe⟩ | ⟨r2, hpr, hrc⟩
          · rw [hp] at hpe
            cases hpe
          · have hr2 : r2 = r := Except.ok.inj (hpr.symm.trans hp)
            subst hr2
            have hkey : rowKey r2 ∈ (insertRow acc.table r2).map Prod.fst :=
              insertRow_self_mem acc.table r2
            cases hrest : rest.foldlM readLine
                { acc with table := insertRow acc.table r2 } with
            | error msg =>
              left
              exact ⟨msg, by rw [hfold, hrest]⟩
            | ok accF =>
              right
              refine ⟨accF, by rw [hfold, hrest], rowKey r2, ?_, hrc⟩
              exact foldlM_table_mono rest hrest (rowKey r2) hkey
        · rw [hfold]
          exact ih { acc with table := insertRow acc.table r } hh ht ⟨bad, hmem2, hbadm⟩

/-! ### Claims about the whole pipeline -/

theorem foldl_body_end_tail (body : List String) (e : String) (ts : List String)
    (hbody : ∀ l ∈ body, pyStartsWith l "END_TABLE" = false ∧
      ∃ r, parseTableLine l = .ok r ∧ r.character.length = 1)
    (he : pyStartsWith e "END_TABLE" = true) :
    ∀ acc : ReadAcc, acc.readingHead = false → acc.readingTable = true →
      ∃ rows : List Row,
        (body ++ e :: ts).foldlM readLine acc
          = .ok { acc with
                    table := readRows acc.table rows,
                    readingTable := false,
                    tail := acc.tail ++ e :: ts }
          ∧ ∀ r ∈ rows, ∃ l ∈ body, parseTableLine l = .ok r := by
  intro acc hh ht
  obtain ⟨ah, atab, atl, arh, art⟩ := acc
  have hh2 : arh = false := hh
  have ht2 : art = true := ht
  subst hh2
  subst ht2
  obtain ⟨rows, heq, hsrc⟩ := foldl_body body (ReadAcc.mk ah atab atl false true) rfl rfl
    (fun l hl => ⟨(hbody l hl).1, ((hbody l hl).2).imp (fun _ hr => hr.1)⟩)
  refine ⟨rows, ?_, hsrc⟩
  rw [foldlM_except_append, heq, except_bind_ok, foldlM_except_cons,
    readLine_tail (ReadAcc.mk ah (readRows atab rows) atl false true) e rfl (Or.inr he),
    except_bind_ok,
    foldl_tail ts (ReadAcc.mk ah (readRows atab rows) (atl ++ [e]) false false) rfl rfl]
  simp [List.append_assoc]

/-- Claim C4: for a well-formed input, the header lines appear byte-identical
and in order in the output, the `BEGIN_TABLE` marker line is replaced by the
canonical line, and everything from the `END_TABLE` marker on (inclusive)
appears byte-identical at the end of the output. -/
theorem claim_C4 (hs : List String) (b : String) (body : List String) (e : String)
    (ts : List String)
    (hhs : ∀ l ∈ hs, pyStartsWith l "BEGIN_TABLE" = false)
    (hb : pyStartsWith b "BEGIN_TABLE" = true)
    (hbody : ∀ l ∈ body, pyStartsWith l "END_TABLE" = false ∧
      ∃ r, parseTableLine l = .ok r ∧ r.character.length = 1)
    (he : pyStartsWith e "END_TABLE" = true) :
    ∃ mid, improveLines (hs ++ b :: (body ++ e :: ts))
      = .ok (String.join hs ++ "BEGIN_TABLE\n" ++ mid ++ String.join (e :: ts)) := by
  have h1 : hs.foldlM readLine initAcc = .ok ⟨hs, [], [], true, true⟩ := by
    have h0 := foldl_head hs initAcc rfl hhs
    simpa [initAcc] using h0
  have h2 : readLine ⟨hs, [], [], true, true⟩ b
      = .ok ⟨hs ++ ["BEGIN_TABLE\n"], [], [], false, true⟩ :=
    readLine_marker ⟨hs, [], [], true, true⟩ b rfl hb
  obtain ⟨rows, heq, hsrc⟩ := foldl_body_end_tail body e ts hbody he
    ⟨hs ++ ["BEGIN_TABLE\n"], [], [], false, true⟩ rfl rfl
  have hkeys : ∀ k ∈ (readRows ([] : Store) rows).map Prod.fst, k.2.length = 1 := by
    apply readRows_char_len rows ?_ [] (by simp)
    intro r hr2
    obtain ⟨l, hl2, hpl⟩ := hsrc r hr2
    obtain ⟨_, r2, hp2, hlen2⟩ := hbody l hl2
    have hr2eq : r2 = r := Except.ok.inj (hp2.symm.trans hpl)
    rw [← hr2eq]
    exact hlen2
  have hnorm := normalize_ok_of_keys (readRows [] rows) hkeys
  refine ⟨String.join ((sortRecords ((readRows ([] : Store) rows).map
      (normalizeEntry ((readRows ([] : Store) rows).map Prod.fst)))).map formatRecord), ?_⟩
  unfold improveLines
  rw [foldlM_except_append, h1]
  simp only [except_bind_ok]
  rw [foldlM_except_cons, h2]
  simp only [except_bind_ok]
  rw [heq]
  simp only [except_bind_ok]
  show (normalize (readRows [] rows) >>= _) = _
  rw [hnorm]
  simp only [except_bind_ok]
  show Except.ok (writeOutput (hs ++ ["BEGIN_TABLE\n"]) _ ([] ++ e :: ts)) = _
  unfold writeOutput
  rw [join_append]
  have hj1 : String.join ["BEGIN_TABLE\n"] = "BEGIN_TABLE\n" :=
    string_eq_of_data (by simp [join_data])
  rw [hj1, List.nil_append]

theorem claim_C4_witness :
    (∀ l ∈ ["# header\n"], pyStartsWith l "BEGIN_TABLE" = false)
    ∧ pyStartsWith "BEGIN_TABLE extra\n" "BEGIN_TABLE" = true
    ∧ (∀ l ∈ ["ab\tc\t5\n"], pyStartsWith l "END_TABLE" = false ∧
        ∃ r, parseTableLine l = .ok r ∧ r.character.length = 1)
    ∧ pyStartsWith "END_TABLE\n" "END_TABLE" = true
    ∧ ∃ mid, improveLines (["# header\n"] ++ "BEGIN_TABLE extra\n" ::
        (["ab\tc\t5\n"] ++ "END_TABLE\n" :: ["# trailer\n"]))
      = .ok (String.join ["# header\n"] ++ "BEGIN_TABLE\n" ++ mid
          ++ String.join ("END_TABLE\n" :: ["# trailer\n"])) := by
  refine ⟨by decide, by decide, ?_, by decide, ?_⟩
  · intro l hl
    have hl2 : l = "ab\tc\t5\n" := List.mem_singleton.mp hl
    subst hl2
    exact ⟨by decide, ⟨⟨"ab", "c", 5, ""⟩, rfl, by decide⟩⟩
  · exact claim_C4 ["# header\n"] "BEGIN_TABLE extra\n" ["ab\tc\t5\n"] "END_TABLE\n"
      ["# trailer\n"] (by decide) (by decide)
      (fun l hl => by
        have hl2 : l = "ab\tc\t5\n" := List.mem_singleton.mp hl
        subst hl2
        exact ⟨by decide, ⟨⟨"ab", "c", 5, ""⟩, rfl, by decide⟩⟩)
      (by decide)

/-- Claim C8: an input whose table region contains a malformed line (wrong
field count, non-integer weight, or a character field that is not one code
point) makes `improve_quick5` fail with an error before the write phase, so
no output is produced. -/
theorem claim_C8 (hs : List String) (b : String) (rest : List String)
    (hhs : ∀ l ∈ hs, pyStartsWith l "BEGIN_TABLE" = false)
    (hb : pyStartsWith b "BEGIN_TABLE" = true)
    (hbad : ∃ l ∈ tableRegion rest, malformedLine l) :
    ∃ msg, improveLines (hs ++ b :: rest) = .error msg := by
  have h1 : hs.foldlM readLine initAcc = .ok ⟨hs, [], [], true, true⟩ := by
    have h0 := foldl_head hs initAcc rfl hhs
    simpa [initAcc] using h0
  have h2 : readLine ⟨hs, [], [], true, true⟩ b
      = .ok ⟨hs ++ ["BEGIN_TABLE\n"], [], [], false, true⟩ :=
    readLine_marker ⟨hs, [], [], true, true⟩ b rfl hb
  rcases foldl_region_error rest ⟨hs ++ ["BEGIN_TABLE\n"], [], [], false, true⟩ rfl rfl hbad
      with ⟨msg, hmsg⟩ | ⟨accF, hok, hbadkey⟩
  · refine ⟨msg, ?_⟩
    unfold improveLines
    rw [foldlM_except_append, h1]
    simp only [except_bind_ok]
    rw [foldlM_except_cons, h2]
    simp only [except_bind_ok]
    rw [hmsg, except_bind_error]
  · obtain ⟨msg2, hmsg2⟩ := normalize_error_of_key accF.table hbadkey
    refine ⟨msg2, ?_⟩
    unfold improveLines
    rw [foldlM_except_append, h1]
    simp only [except_bind_ok]
    rw [foldlM_except_cons, h2]
    simp only [except_bind_ok]
    rw [hok]
    simp only [except_bind_ok]
    rw [hmsg2, except_bind_error]

theorem claim_C8_witness :
    (∃ l ∈ tableRegion ["ab\tc\n", "END_TABLE\n"], malformedLine l)
    ∧ ∃ msg, improveLines ([] ++ "BEGIN_TABLE\n" :: ["ab\tc\n", "END_TABLE\n"])
        = .error msg := by
  constructor
  · refine ⟨"ab\tc\n", by decide, Or.inl ⟨by decide, by decide⟩⟩
  · exact claim_C8 [] "BEGIN_TABLE\n" ["ab\tc\n", "END_TABLE\n"] (by simp) (by decide)
      ⟨"ab\tc\n", by decide, Or.inl ⟨by decide, by decide⟩⟩

/-- Claim C10: if no line of the input starts with `BEGIN_TABLE`, every line
goes to the head, the record store and the tail stay empty, and the output
file is a byte-identical copy of the input file. -/
theorem claim_C10 (content : String)
    (h : ∀ l ∈ pythonLines content, pyStartsWith l "BEGIN_TABLE" = false) :
    (pythonLines content).foldlM readLine initAcc
      = .ok ⟨pythonLines content, [], [], true, true⟩
    ∧ improve_quick5 content = .ok content := by
  have h1 : (pythonLines content).foldlM readLine initAcc
      = .ok ⟨pythonLines content, [], [], true, true⟩ := by
    have h0 := foldl_head (pythonLines content) initAcc rfl h
    simpa [initAcc] using h0
  refine ⟨h1, ?_⟩
  unfold improve_quick5 improveLines
  rw [h1]
  simp only [except_bind_ok]
  rw [show normalize ([] : Store) = .ok ([] : Store) from rfl]
  simp only [except_bind_ok]
  show Except.ok (writeOutput (pythonLines content) [] []) = _
  unfold writeOutput
  rw [show sortRecords ([] : Store) = [] from rfl, List.map_nil,
    show String.join ([] : List String) = "" from rfl,
    string_append_empty, string_append_empty, join_pythonLines]

theorem claim_C10_witness :
    (∀ l ∈ pythonLines "hello\nworld\n", pyStartsWith l "BEGIN_TABLE" = false)
    ∧ (pythonLines "hello\nworld\n").foldlM readLine initAcc
        = .ok ⟨pythonLines "hello\nworld\n", [], [], true, true⟩
    ∧ improve_quick5 "hello\nworld\n" = .ok "hello\nworld\n" := by
  refine ⟨by decide, ?_, ?_⟩
  · exact (claim_C10 "hello\nworld\n" (by decide)).1
  · exact (claim_C10 "hello\nworld\n" (by decide)).2

end ImproveQuick5
